import Mathlib

/-!
# Verification of the OCR Field-Extraction Engine

A shallow embedding in Lean 4 of the core logic of the `ocr` repository:
the line tokenizer / selection controller (`static/js/ocr.js`), the
key-value parser (`processSelection`), the category classifier
(`static/js/document_viewer/preview.js`, `guessCategory`), the field
store (a JavaScript `Map`, as used in `static/js/case_document_viewer.js`
and `static/js/document_viewer/init.js`), the placeholder binder
(`updateReportFields` in the report module and `updateFieldInKeyValueMap`
in `static/js/document_viewer/init.js`), and the streaming-analysis line
loop (`static/js/analysis.js`).

JavaScript strings are modelled as `List Char` (all characters involved
are in the BMP, so code-unit indexing coincides with character indexing);
JavaScript `Map`s are modelled as insertion-ordered association lists with
`Map.set` / `Map.delete` semantics; `Set`s of DOM nodes are modelled as
insertion-ordered duplicate-free lists.
-/

namespace OCR

/-- JavaScript strings, modelled as lists of characters. -/
abbrev Str := List Char

/-- Coerce a Lean string literal to the `Str` model. -/
def str (s : String) : Str := s.data

/-- Model of `String.prototype.trim`: strip leading and trailing whitespace.
(The JS whitespace class restricted to the characters that occur in this
code base coincides with `Char.isWhitespace`.) -/
def jsTrim (s : Str) : Str :=
  ((s.dropWhile Char.isWhitespace).reverse.dropWhile Char.isWhitespace).reverse

/-- Model of `String.prototype.includes`: substring containment. -/
def jsIncludes : Str → Str → Bool
  | [], sub => sub.isEmpty
  | c :: t, sub => sub.isPrefixOf (c :: t) || jsIncludes t sub

/-- Model of `String.prototype.toLowerCase`, on the character repertoire used here
(ASCII letters; CJK characters are fixed points). -/
def jsToLower (s : Str) : Str := s.map Char.toLower

/-- Model of `String.prototype.indexOf` for a single-character needle, returning
`none` in place of `-1`. -/
def jsIndexOf (s : Str) (c : Char) : Option Nat :=
  s.findIdx? (fun x => x == c)

/-- The full-width colon `：` (U+FF1A). -/
def fullColon : Char := '：'

/-- The half-width colon `:`. -/
def halfColon : Char := ':'

/-!
## KV Parser

`processSelection` (`static/js/ocr.js` lines 144-162, and identically in
the `DocumentViewer` OCR module):

```js
const colonIndex = text.indexOf ('：') !== -1
  ? text.indexOf ('：')
  : text.indexOf (':');
if (colonIndex !== -1) {
  const key = text.substring (0, colonIndex).trim ();
  const value = text.substring (colonIndex + 1).trim ();
  ...
} else {
  keyInput.value = '';
  valueInput.value = text;
}
```
-/

/-- The key/value split performed by `processSelection` on the combined
selected text. -/
def parseKV (text : Str) : Str × Str :=
  let colonIndex : Option Nat :=
    match jsIndexOf text fullColon with
    | some i => some i
    | none => jsIndexOf text halfColon
  match colonIndex with
  | some i => (jsTrim (text.take i), jsTrim (text.drop (i + 1)))
  | none => ([], text)

/-- The first index at which character `c` occurs in `t`, phrased
positionally (used to state the spec's "first occurrence" wording
independently of `findIdx?`). -/
def firstIndexOf (t : Str) (c : Char) : Option Nat :=
  (List.range t.length).find? (fun i => t.get? i == some c)

/-- The KV-parse algorithm exactly as the spec sentence describes it:
first occurrence of the full-width colon anywhere wins; else first
half-width colon; else key empty and value the entire *trimmed* text. -/
def parseKV_claimed (text : Str) : Str × Str :=
  match firstIndexOf text fullColon with
  | some i => (jsTrim (text.take i), jsTrim (text.drop (i + 1)))
  | none =>
    match firstIndexOf text halfColon with
    | some i => (jsTrim (text.take i), jsTrim (text.drop (i + 1)))
    | none => ([], jsTrim text)

/-- The spec's fallback clause amended: when neither delimiter occurs the
value is the entire text, not additionally trimmed. -/
def parseKV_claimedAmended (text : Str) : Str × Str :=
  match firstIndexOf text fullColon with
  | some i => (jsTrim (text.take i), jsTrim (text.drop (i + 1)))
  | none =>
    match firstIndexOf text halfColon with
    | some i => (jsTrim (text.take i), jsTrim (text.drop (i + 1)))
    | none => ([], text)

/-!
## Category Classifier

`guessCategory` (`static/js/document_viewer/preview.js` lines 345-370).
-/

def personalKeys : List Str :=
  [str "姓名", str "性别", str "年龄", str "电话", str "地址", str "工作单位", str "身份证"]

def medicalKeys : List Str :=
  [str "医院", str "诊断", str "医师", str "治疗", str "病历", str "住院", str "伤情", str "检查"]

def incidentKeys : List Str :=
  [str "事故", str "日期", str "时间", str "地点", str "经过", str "过程", str "造成"]

def legalKeys : List Str :=
  [str "鉴定", str "法律", str "责任", str "条款", str "标准", str "伤残等级", str "结论"]

/-- Transliteration of `DocumentViewer.prototype.guessCategory`: lowercase the key, test the
four keyword lists in the fixed order personal, medical, incident, legal
(each keyword also lowercased), return the first list's category on a
substring hit, default `personal`. -/
def guessCategory (key : Str) : Str :=
  let k := jsToLower key
  if personalKeys.any (fun w => jsIncludes k (jsToLower w)) then str "personal"
  else if medicalKeys.any (fun w => jsIncludes k (jsToLower w)) then str "medical"
  else if incidentKeys.any (fun w => jsIncludes k (jsToLower w)) then str "incident"
  else if legalKeys.any (fun w => jsIncludes k (jsToLower w)) then str "legal"
  else str "personal"

/-- The classifier as the spec sentence phrases it: a fixed precedence
table scanned for the first category whose keyword list has a
case-insensitive substring match, defaulting to `personal`. -/
def categoryTable : List (Str × List Str) :=
  [(str "personal", personalKeys), (str "medical", medicalKeys),
   (str "incident", incidentKeys), (str "legal", legalKeys)]

def classify_claimed (key : Str) : Str :=
  match categoryTable.find?
      (fun p => p.2.any (fun w => jsIncludes (jsToLower key) (jsToLower w))) with
  | some p => p.1
  | none => str "personal"

/-!
## Field Store

JavaScript `Map` semantics over insertion-ordered association lists:
`Map.set` updates an existing key in place (preserving its position),
otherwise appends at the end; `Map.delete` removes the key's entry and is
a no-op when the key is absent.
-/

def mapSet (m : List (Str × α)) (k : Str) (v : α) : List (Str × α) :=
  match m with
  | [] => [(k, v)]
  | (k', v') :: rest =>
    if k' = k then (k, v) :: rest else (k', v') :: mapSet rest k v

def mapDelete (m : List (Str × α)) (k : Str) : List (Str × α) :=
  match m with
  | [] => []
  | (k', v') :: rest =>
    if k' = k then rest else (k', v') :: mapDelete rest k

def mapKeys (m : List (Str × α)) : List Str := m.map Prod.fst

/-- Transliteration of `handleSave` inside `DocumentViewer.editKeyValue`
(`static/js/case_document_viewer.js` lines 437-458): trim the entered key
and value; do nothing when the key trims to empty; when the key changed,
delete the original key first; then `Map.set` the new key. -/
def handleSave (m : List (Str × Str)) (origKey rawKey rawValue : Str) :
    List (Str × Str) :=
  let newKey := jsTrim rawKey
  let newValue := jsTrim rawValue
  if newKey = [] then m
  else mapSet (if newKey = origKey then m else mapDelete m origKey) newKey newValue

/-!
## Document review session state

`viewDocument` (`static/js/document_viewer/preview.js` lines 13-64) and
`changePage` (same file lines 180-192; textually identical in
`static/js/case_document_viewer.js` lines 204-216).  Only the parts of
the state that these functions read or write are modelled; rendering is
DOM-only and does not touch the model state.
-/

structure FieldData where
  value : Str
  category : Str
deriving DecidableEq, Repr

structure DocumentData where
  pageCount : Nat
  processed_text : List (Str × Str)
deriving DecidableEq, Repr

structure ViewerState where
  currentPage : Nat
  zoom : Nat
  keyValueMap : List (Str × FieldData)
  selectedText : List Str
  currentDocument : Option DocumentData
deriving DecidableEq, Repr

/-- Transliteration of the `DocumentViewer.prototype.viewDocument` state transition: store the
new document, reset page and zoom, clear the key-value map and selection,
then repopulate the map from the document's `processed_text`, assigning
each key a category via `guessCategory`. -/
def viewDocument (st : ViewerState) (doc : DocumentData) : ViewerState :=
  { st with
    currentDocument := some doc
    currentPage := 1
    zoom := 100
    selectedText := []
    keyValueMap := doc.processed_text.foldl
      (fun m kv => mapSet m kv.1 ⟨kv.2, guessCategory kv.1⟩) [] }

/-- Transliteration of `DocumentViewer.prototype.changePage`: no-op without a document or
when the target page is out of range; otherwise only `currentPage`
changes (the key-value map is not touched). -/
def changePage (st : ViewerState) (delta : Int) : ViewerState :=
  match st.currentDocument with
  | none => st
  | some doc =>
    let newPage : Int := (st.currentPage : Int) + delta
    if newPage < 1 ∨ newPage > (doc.pageCount : Int) then st
    else { st with currentPage := newPage.toNat }

/-!
## Placeholder Binder

`updateReportFields` (report module of the DocumentViewer, placeholder
resolution loop) and `updateFieldInKeyValueMap` /
`guessFieldCategory` (`static/js/document_viewer/init.js` lines 187-274).
-/

/-- JS object property lookup (`fieldMapping[fieldName]`). -/
def mapLookup (m : List (Str × α)) (k : Str) : Option α :=
  match m with
  | [] => none
  | (k', v) :: rest => if k' = k then some v else mapLookup rest k

/-- The static `fieldMapping` table: placeholder name → alias keywords in
priority order (identical in the report module and in
`updateFieldInKeyValueMap`). -/
def fieldMapping : List (Str × List Str) :=
  [ (str "name", [str "姓名", str "名字", str "被鉴定人"]),
    (str "gender", [str "性别"]),
    (str "age", [str "年龄", str "岁数"]),
    (str "workUnit", [str "工作单位", str "单位", str "就职单位"]),
    (str "accidentDate", [str "事故日期", str "事故时间", str "日期"]),
    (str "accidentLocation", [str "事故地点", str "地点", str "位置"]),
    (str "accidentDetails",
      [str "事故经过", str "事故描述", str "经过", str "描述"]),
    (str "hospital", [str "医院", str "就诊医院", str "住院医院"]),
    (str "diagnosis", [str "诊断", str "诊断结果", str "伤情"]),
    (str "hospitalDays", [str "住院天数", str "住院时间"]),
    (str "conclusion", [str "结论", str "鉴定结论", str "伤残等级"]),
    (str "assessmentOrg", [str "鉴定机构", str "鉴定单位"]),
    (str "assessmentDate", [str "鉴定日期", str "鉴定时间"]),
    (str "assessor", [str "鉴定人", str "鉴定专家"]),
    (str "certNumber", [str "证书编号", str "执业证号", str "编号"]) ]

/-- JS truthiness of the `fieldValue` variable: `null` and the empty
string are the falsy cases. -/
def jsTruthy : Option Str → Bool
  | none => false
  | some s => !s.isEmpty

/-- First loop of `updateReportFields`: one scan over the store, stopping
at the first key equal to the placeholder name case-sensitively *or*
case-insensitively. -/
def directScan (store : List (Str × FieldData)) (fieldName : Str) :
    Option Str :=
  match store with
  | [] => none
  | (k, d) :: rest =>
    if k = fieldName ∨ jsToLower k = jsToLower fieldName then some d.value
    else directScan rest fieldName

/-- Second loop of `updateReportFields`: for each store entry in
iteration order, if any alias keyword matches the key bidirectionally,
overwrite `fieldValue` with that entry's value; stop as soon as
`fieldValue` is truthy. -/
def aliasScan (terms : List Str) (fv : Option Str) :
    List (Str × FieldData) → Option Str
  | [] => fv
  | (k, d) :: rest =>
    let fv' := if terms.any (fun term => jsIncludes k term || jsIncludes term k)
      then some d.value else fv
    if jsTruthy fv' then fv' else aliasScan terms fv' rest

/-- The placeholder-resolution logic of `updateReportFields` for one
placeholder: direct scan, then — when `fieldValue` is still falsy and the
placeholder has an alias list — the alias scan. -/
def updateReportFields_resolve (store : List (Str × FieldData))
    (fieldName : Str) : Option Str :=
  let fv := directScan store fieldName
  if jsTruthy fv then fv
  else match mapLookup fieldMapping fieldName with
    | some terms => aliasScan terms fv store
    | none => fv

/-- Stage (3) of the claim, as worded: for each alias keyword in list
order, scan all store keys and return the first bidirectional-substring
match. -/
def aliasFirst_claimed : List Str → List (Str × FieldData) → Option Str
  | [], _ => none
  | a :: as, store =>
    match store.find? (fun e => jsIncludes e.1 a || jsIncludes a e.1) with
    | some e => some e.2.value
    | none => aliasFirst_claimed as store

/-- The three-stage resolve algorithm exactly as the claim words it:
(1) case-sensitive exact match over the whole store, then (2)
case-insensitive exact match over the whole store, then (3) the
alias-major scan. -/
def resolve_claimed (store : List (Str × FieldData)) (fieldName : Str) :
    Option Str :=
  match store.find? (fun e => e.1 == fieldName) with
  | some e => some e.2.value
  | none =>
    match store.find? (fun e => jsToLower e.1 == jsToLower fieldName) with
    | some e => some e.2.value
    | none =>
      match mapLookup fieldMapping fieldName with
      | none => none
      | some terms => aliasFirst_claimed terms store

/-- The resolve algorithm as amended: one combined direct scan
(case-sensitive or case-insensitive, first store entry wins); if the
result is null or empty, one entry-major alias scan returning the first
matching entry with a non-empty value, or — if every matching entry has
an empty value — that empty value, or the direct-scan result if no entry
matches. -/
def resolve_claimedAmended (store : List (Str × FieldData))
    (fieldName : Str) : Option Str :=
  let dv := (store.filter
      (fun e => e.1 == fieldName || jsToLower e.1 == jsToLower fieldName)).head?
    |>.map (fun e => e.2.value)
  if jsTruthy dv then dv
  else match mapLookup fieldMapping fieldName with
    | none => dv
    | some terms =>
      let ms := store.filter
        (fun e => terms.any (fun term => jsIncludes e.1 term || jsIncludes term e.1))
      match ms.find? (fun e => !e.2.value.isEmpty) with
      | some e => some e.2.value
      | none =>
        match ms.getLast? with
        | some e => some e.2.value
        | none => dv

/-- The key-candidate match of `updateFieldInKeyValueMap` (lines
215-219): exact equality or bidirectional substring containment against
any candidate key name. -/
def keyMatchesAny (potentialKeys : List Str) (k : Str) : Bool :=
  potentialKeys.any (fun pk => k == pk || jsIncludes k pk || jsIncludes pk k)

/-- Transliteration of `guessFieldCategory` (`static/js/document_viewer/init.js` lines
252-274): a fixed table from English placeholder names to categories,
with exact membership tests and a `personal` default. -/
def guessFieldCategory (fieldName : Str) : Str :=
  let personalFields := [str "name", str "gender", str "age", str "workUnit"]
  let medicalFields := [str "hospital", str "diagnosis", str "hospitalDays"]
  let incidentFields :=
    [str "accidentDate", str "accidentLocation", str "accidentDetails"]
  let legalFields := [str "conclusion", str "assessmentOrg",
    str "assessmentDate", str "assessor", str "certNumber"]
  if personalFields.contains fieldName then str "personal"
  else if medicalFields.contains fieldName then str "medical"
  else if incidentFields.contains fieldName then str "incident"
  else if legalFields.contains fieldName then str "legal"
  else str "personal"

/-- Transliteration of `updateFieldInKeyValueMap` (`static/js/document_viewer/init.js`
lines 187-245): find the first store entry whose key matches a candidate
key name and overwrite only its value; otherwise insert a fresh entry
under the first candidate key, categorized by `guessFieldCategory` of the
placeholder name. -/
def updateFieldInKeyValueMap (store : List (Str × FieldData))
    (fieldName newValue : Str) : List (Str × FieldData) :=
  let potentialKeys := (mapLookup fieldMapping fieldName).getD [fieldName]
  match store.find? (fun e => keyMatchesAny potentialKeys e.1) with
  | some e => mapSet store e.1 ⟨newValue, e.2.category⟩
  | none => mapSet store (potentialKeys.headD [])
      ⟨newValue, guessFieldCategory fieldName⟩

/-!
## Streaming-analysis line loop

`AIAnalyzer.handleStreamResponse` and `AIAnalyzer.isValidStreamLine`
(`static/js/analysis.js` lines 200-256).  `JSON.parse` together with the
`json.choices[0].delta?.content` access is abstracted as a function
`decode` whose outcomes are: the parse or the property access threw
(caught by the line-level `try`), no content fragment, or a content
fragment (possibly the empty string, which the truthiness guard then
skips).
-/

def streamDataMarker : Str := str "data: "

/-- Transliteration of `AIAnalyzer.isValidStreamLine`. -/
def isValidStreamLine (line : Str) : Bool :=
  !(jsTrim line == ([] : Str)) &&
  !(jsTrim line == str "data: [DONE]") &&
  streamDataMarker.isPrefixOf line

/-- Model of `String.prototype.replace` with a string pattern: replace the first
occurrence of `pat` (here by the empty string). -/
def jsReplaceFirst (s pat : Str) : Str :=
  match s with
  | [] => []
  | c :: t =>
    if pat.isPrefixOf (c :: t) then (c :: t).drop pat.length
    else c :: jsReplaceFirst t pat

/-- The line loop of `handleStreamResponse`: skip invalid lines; on a
valid `data: ` line run `decode` on the stripped payload; a throw or a
falsy content fragment leaves the accumulator unchanged and processing
continues with the remaining lines. -/
def processStreamLines (decode : Str → Except Unit (Option Str)) :
    Str → List Str → Str
  | acc, [] => acc
  | acc, line :: rest =>
    if isValidStreamLine line then
      match decode (jsReplaceFirst line streamDataMarker) with
      | .error _ => processStreamLines decode acc rest
      | .ok none => processStreamLines decode acc rest
      | .ok (some c) =>
        if c.isEmpty then processStreamLines decode acc rest
        else processStreamLines decode (acc ++ c) rest
    else processStreamLines decode acc rest

/-- The content fragment a single line contributes: `none` for blank
lines, non-`data: ` lines, the `data: [DONE]` terminator, malformed
payloads, and absent or empty content. -/
def streamFragment (decode : Str → Except Unit (Option Str))
    (line : Str) : Option Str :=
  if isValidStreamLine line then
    match decode (jsReplaceFirst line streamDataMarker) with
    | .ok (some c) => if c.isEmpty then none else some c
    | _ => none
  else none

/-!
## Selection Controller

`OCRProcessor` (`static/js/ocr.js` lines 1-9, 71-135): `selectedLines` is
a JS `Set` of rendered line elements (modelled by its insertion order as
a duplicate-free list), `processedLines` the set of committed line
indices, `lastSelected` the anchor element.  A rendered line is its
stable `data-index` plus its text content; the rendered line list is in
document order, i.e. strictly increasing in `index`.
-/

structure Line where
  index : Nat
  text : Str
deriving DecidableEq, Repr

structure OCRState where
  selectedLines : List Line
  processedLines : List Nat
  lastSelected : Option Line
deriving DecidableEq, Repr

/-- The `OCRProcessor` constructor: empty selection, nothing processed,
no anchor. -/
def initialOCRState : OCRState :=
  { selectedLines := [], processedLines := [], lastSelected := none }

/-- Transliteration of `handleSingleSelect`: a plain click on a non-committed line replaces
the selection with that line and anchors on it; clicks on committed lines
are rejected by the `handleLineClick` guard. -/
def handleSingleSelect (st : OCRState) (line : Line) : OCRState :=
  if st.processedLines.contains line.index then st
  else { st with selectedLines := [line], lastSelected := some line }

/-- Transliteration of `handleMultiSelect`: a ctrl/cmd-click toggles membership of a
non-committed line (a newly selected line joins at the end of the `Set`'s
insertion order) and anchors on it. -/
def handleMultiSelect (st : OCRState) (line : Line) : OCRState :=
  if st.processedLines.contains line.index then st
  else if st.selectedLines.contains line then
    { st with selectedLines := st.selectedLines.erase line
              lastSelected := some line }
  else
    { st with selectedLines := st.selectedLines ++ [line]
              lastSelected := some line }

/-- Model of `Array.prototype.slice(a, b)`: the elements at positions
`a, …, b-1`. -/
def jsSlice (l : List α) (a b : Nat) : List α := (l.take b).drop a

/-- Transliteration of `handleRangeSelect` (`static/js/ocr.js` lines 87-109): positions of
the anchor (`lastSelected`) and the clicked line in the rendered line
list, the slice between them inclusive, filtered to drop committed
lines; the anchor is left unchanged. -/
def handleRangeSelect (st : OCRState) (line : Line)
    (lineElements : List Line) : OCRState :=
  match st.lastSelected with
  | none => st
  | some anchor =>
    let s := lineElements.indexOf anchor
    let e := lineElements.indexOf line
    let range := jsSlice lineElements (min s e) (max s e + 1)
    { st with selectedLines :=
        range.filter (fun l => !(st.processedLines.contains l.index)) }

/-- The commit step of `processSelection` (`static/js/ocr.js` lines
137-142): the trimmed text of the selected lines, in the selection set's
iteration order, joined with no separator. -/
def processSelection (st : OCRState) : Str :=
  (st.selectedLines.map (fun l => jsTrim l.text)).flatten

/-- The claim's reading order: the selected lines rearranged into
ascending `index` order. -/
def sortByIndex (ls : List Line) : List Line :=
  ls.insertionSort (fun a b => a.index ≤ b.index)

/-!
## Supporting lemmas
-/

theorem mapSet_cons_eq (rest : List (Str × α)) (k : Str) (v v' : α) :
    mapSet ((k, v') :: rest) k v = (k, v) :: rest := by
  show (if k = k then (k, v) :: rest else (k, v') :: mapSet rest k v) = _
  rw [if_pos rfl]

theorem mapSet_cons_ne (rest : List (Str × α)) (k k' : Str) (v v' : α)
    (h : k' ≠ k) :
    mapSet ((k', v') :: rest) k v = (k', v') :: mapSet rest k v := by
  show (if k' = k then (k, v) :: rest else (k', v') :: mapSet rest k v) = _
  rw [if_neg h]

theorem mem_mapKeys_mapSet (m : List (Str × α)) (k : Str) (v : α) (a : Str) :
    a ∈ mapKeys (mapSet m k v) ↔ a ∈ mapKeys m ∨ a = k := by
  induction m with
  | nil => simp [mapSet, mapKeys]
  | cons e rest ih =>
    obtain ⟨k', v'⟩ := e
    by_cases h : k' = k
    · subst h
      rw [mapSet_cons_eq]
      simp only [mapKeys, List.map_cons, List.mem_cons]
      tauto
    · rw [mapSet_cons_ne rest k k' v v' h]
      simp only [mapKeys, List.map_cons, List.mem_cons]
      rw [show List.map Prod.fst (mapSet rest k v) = mapKeys (mapSet rest k v)
            from rfl, show List.map (α := Str × α) Prod.fst rest = mapKeys rest
            from rfl, ih]
      tauto

theorem mapSet_of_not_mem (m : List (Str × α)) (k : Str) (v : α)
    (h : k ∉ mapKeys m) : mapSet m k v = m ++ [(k, v)] := by
  induction m with
  | nil => rfl
  | cons e rest ih =>
    obtain ⟨k', v'⟩ := e
    simp only [mapKeys, List.map_cons, List.mem_cons] at h
    push_neg at h
    rw [mapSet_cons_ne rest k k' v v' (Ne.symm h.1), List.cons_append]
    exact congrArg (List.cons (k', v')) (ih h.2)

theorem mapKeys_mapSet_of_mem (m : List (Str × α)) (k : Str) (v : α)
    (h : k ∈ mapKeys m) : mapKeys (mapSet m k v) = mapKeys m := by
  induction m with
  | nil => simp [mapKeys] at h
  | cons e rest ih =>
    obtain ⟨k', v'⟩ := e
    by_cases hk : k' = k
    · subst hk
      rw [mapSet_cons_eq]
      rfl
    · simp only [mapKeys, List.map_cons, List.mem_cons] at h
      rcases h with h | h
      · exact absurd h.symm hk
      · rw [mapSet_cons_ne rest k k' v v' hk]
        show k' :: mapKeys (mapSet rest k v) = k' :: mapKeys rest
        rw [ih h]

theorem find?_append_of_forall_false {p : Str × FieldData → Bool}
    (pre post : List (Str × FieldData)) (e : Str × FieldData)
    (hpre : ∀ x ∈ pre, p x = false) (he : p e = true) :
    (pre ++ e :: post).find? p = some e := by
  induction pre with
  | nil => simp [List.find?_cons, he]
  | cons a pre ih =>
    have ha : p a = false := hpre a (List.mem_cons_self a pre)
    simp only [List.cons_append, List.find?_cons, ha, cond_false]
    exact ih fun x hx => hpre x (List.mem_cons_of_mem a hx)

theorem mapSet_append_first (pre post : List (Str × α)) (k : Str) (v : α)
    (d : α) (hpre : ∀ x ∈ pre, x.1 ≠ k) :
    mapSet (pre ++ (k, d) :: post) k v = pre ++ (k, v) :: post := by
  induction pre with
  | nil => simp [mapSet_cons_eq]
  | cons a pre ih =>
    obtain ⟨k', v'⟩ := a
    have hne : k' ≠ k := hpre (k', v') (List.mem_cons_self _ pre)
    rw [List.cons_append, mapSet_cons_ne _ k k' v v' hne, List.cons_append]
    exact congrArg _ (ih fun x hx => hpre x (List.mem_cons_of_mem _ hx))

theorem mapKeys_foldl_mapSet_subset (l : List (Str × Str))
    (m0 : List (Str × FieldData)) (a : Str)
    (h : a ∈ mapKeys (l.foldl
      (fun m kv => mapSet m kv.1 ⟨kv.2, guessCategory kv.1⟩) m0)) :
    a ∈ mapKeys m0 ∨ a ∈ l.map Prod.fst := by
  induction l generalizing m0 with
  | nil => exact Or.inl h
  | cons e rest ih =>
    simp only [List.foldl_cons] at h
    rcases ih _ h with h' | h'
    · rw [mem_mapKeys_mapSet] at h'
      rcases h' with h' | h'
      · exact Or.inl h'
      · exact Or.inr (by simp [h'])
    · exact Or.inr (by simp [h'])

theorem directScan_eq (store : List (Str × FieldData)) (fieldName : Str) :
    directScan store fieldName
      = ((store.filter (fun e => e.1 == fieldName
          || jsToLower e.1 == jsToLower fieldName)).head?).map
          (fun e => e.2.value) := by
  induction store with
  | nil => rfl
  | cons e rest ih =>
    obtain ⟨k, d⟩ := e
    by_cases h : k = fieldName ∨ jsToLower k = jsToLower fieldName
    · have hb : (k == fieldName || jsToLower k == jsToLower fieldName) = true := by
        rcases h with h | h <;> simp [h]
      simp [directScan, h, List.filter_cons, hb]
    · have hb : (k == fieldName || jsToLower k == jsToLower fieldName) = false := by
        push_neg at h
        simp [h.1, h.2]
      simp only [directScan, if_neg h, List.filter_cons, hb, cond_false]
      exact ih

theorem aliasScan_cons_step (terms : List Str) (fv : Option Str) (k : Str)
    (d : FieldData) (rest : List (Str × FieldData)) :
    aliasScan terms fv ((k, d) :: rest)
      = (if (terms.any (fun term => jsIncludes k term || jsIncludes term k)) = true
         then (if jsTruthy (some d.value) = true then some d.value
               else aliasScan terms (some d.value) rest)
         else (if jsTruthy fv = true then fv
               else aliasScan terms fv rest)) := by
  show (if jsTruthy (if (terms.any (fun term => jsIncludes k term || jsIncludes term k)) = true
          then some d.value else fv) = true
        then (if (terms.any (fun term => jsIncludes k term || jsIncludes term k)) = true
          then some d.value else fv)
        else aliasScan terms
          (if (terms.any (fun term => jsIncludes k term || jsIncludes term k)) = true
            then some d.value else fv) rest) = _
  by_cases hp : (terms.any (fun term => jsIncludes k term || jsIncludes term k)) = true
  · rw [if_pos hp, if_pos hp]
  · rw [if_neg hp, if_neg hp]

theorem aliasScan_eq (terms : List Str) (store : List (Str × FieldData))
    (fv : Option Str) (hfv : jsTruthy fv = false) :
    aliasScan terms fv store
      = (let ms := store.filter
          (fun e => terms.any (fun term => jsIncludes e.1 term || jsIncludes term e.1))
         match ms.find? (fun e => !e.2.value.isEmpty) with
         | some e => some e.2.value
         | none =>
           match ms.getLast? with
           | some e => some e.2.value
           | none => fv) := by
  induction store generalizing fv with
  | nil => simp [aliasScan]
  | cons e rest ih =>
    obtain ⟨k, d⟩ := e
    rw [aliasScan_cons_step]
    by_cases hp : (terms.any (fun term => jsIncludes k term || jsIncludes term k)) = true
    · rw [if_pos hp]
      by_cases hd : d.value.isEmpty = true
      · have htr : jsTruthy (some d.value) = false := by
          simp [jsTruthy, hd]
        rw [if_neg (by rw [htr]; exact Bool.false_ne_true),
          ih (some d.value) htr]
        simp only [List.filter_cons, hp, if_true]
        rw [List.find?_cons]
        simp only [hd, Bool.not_true, cond_false]
        cases hfind : (rest.filter
            (fun e => terms.any (fun term => jsIncludes e.1 term || jsIncludes term e.1))).find?
            (fun e => !e.2.value.isEmpty) with
        | some e' => simp [hfind]
        | none =>
          simp only [hfind]
          cases hms : (rest.filter
              (fun e => terms.any (fun term => jsIncludes e.1 term || jsIncludes term e.1))) with
          | nil => simp
          | cons m ms' =>
            rw [List.getLast?_cons_cons]
            cases hgl : (m :: ms').getLast? with
            | some e' => rfl
            | none => simp at hgl
      · have hd' : d.value.isEmpty = false := by
          cases h' : d.value.isEmpty with
          | true => exact absurd h' hd
          | false => rfl
        have htr : jsTruthy (some d.value) = true := by
          simp [jsTruthy, hd']
        rw [if_pos htr]
        simp only [List.filter_cons, hp, if_true]
        rw [List.find?_cons]
        simp [hd']
    · rw [if_neg hp, if_neg (by rw [hfv]; exact Bool.false_ne_true)]
      have hp' : (terms.any (fun term => jsIncludes k term || jsIncludes term k)) = false := by
        cases h' : terms.any (fun term => jsIncludes k term || jsIncludes term k) with
        | true => exact absurd h' hp
        | false => rfl
      simp only [List.filter_cons, hp', if_false, Bool.false_eq_true]
      exact ih fv hfv

theorem firstIndexOf_eq_jsIndexOf (t : Str) (c : Char) :
    firstIndexOf t c = jsIndexOf t c := by
  unfold firstIndexOf jsIndexOf
  induction t with
  | nil => rfl
  | cons a t ih =>
    simp only [List.length_cons]
    rw [List.range_succ_eq_map, List.find?_cons, List.findIdx?_cons]
    by_cases h : a = c
    · simp [h]
    · have ha : ((a :: t).get? 0 == some c) = false := by
        simp [List.get?, h]
      simp only [ha]
      have hb : (a == c) = false := by
        simp [h]
      simp only [hb, cond_false]
      rw [List.find?_map]
      have : ∀ i : Nat,
          ((a :: t).get? (i + 1) == some c) = (t.get? i == some c) := by
        intro i; rfl
      rw [show (fun i => (a :: t).get? i == some c) ∘ (· + 1)
            = fun i => t.get? i == some c by funext i; simp [Function.comp]]
      rw [ih]
      cases hfind : List.findIdx? (fun x => x == c) t with
      | none => simp [hfind]
      | some j => simp [hfind]

theorem processStreamLines_eq (decode : Str → Except Unit (Option Str))
    (lines : List Str) (acc : Str) :
    processStreamLines decode acc lines
      = acc ++ (lines.filterMap (streamFragment decode)).flatten := by
  induction lines generalizing acc with
  | nil => simp [processStreamLines]
  | cons line rest ih =>
    have hshow : processStreamLines decode acc (line :: rest)
        = (if isValidStreamLine line = true
           then match decode (jsReplaceFirst line streamDataMarker) with
             | .error _ => processStreamLines decode acc rest
             | .ok none => processStreamLines decode acc rest
             | .ok (some c) =>
               if c.isEmpty = true then processStreamLines decode acc rest
               else processStreamLines decode (acc ++ c) rest
           else processStreamLines decode acc rest) := rfl
    by_cases hv : isValidStreamLine line = true
    · cases hd : decode (jsReplaceFirst line streamDataMarker) with
      | error err =>
        have hfrag : streamFragment decode line = none := by
          simp [streamFragment, hv, hd]
        rw [hshow, if_pos hv, hd, ih, List.filterMap_cons, hfrag]
      | ok o =>
        cases o with
        | none =>
          have hfrag : streamFragment decode line = none := by
            simp [streamFragment, hv, hd]
          rw [hshow, if_pos hv, hd, ih, List.filterMap_cons, hfrag]
        | some c =>
          by_cases hc : c.isEmpty = true
          · have hfrag : streamFragment decode line = none := by
              simp [streamFragment, hv, hd, hc]
            rw [hshow, if_pos hv, hd]
            show (if List.isEmpty c = true then processStreamLines decode acc rest
                  else processStreamLines decode (acc ++ c) rest) = _
            rw [if_pos hc, ih, List.filterMap_cons, hfrag]
          · have hfrag : streamFragment decode line = some c := by
              simp [streamFragment, hv, hd, hc]
            rw [hshow, if_pos hv, hd]
            show (if List.isEmpty c = true then processStreamLines decode acc rest
                  else processStreamLines decode (acc ++ c) rest) = _
            rw [if_neg hc, ih, List.filterMap_cons, hfrag, List.flatten_cons,
              List.append_assoc]
    · have hfrag : streamFragment decode line = none := by
        simp [streamFragment, hv]
      rw [hshow, if_neg hv, ih, List.filterMap_cons, hfrag]

theorem sorted_get_le {α : Type} (f : α → Nat) (l : List α)
    (h : l.Pairwise (fun a b => f a < f b)) (i j : Nat)
    (hi : i < l.length) (hj : j < l.length) (hij : i ≤ j) :
    f (l.get ⟨i, hi⟩) ≤ f (l.get ⟨j, hj⟩) := by
  rcases Nat.eq_or_lt_of_le hij with heq | hlt
  · subst heq; exact le_refl _
  · exact le_of_lt (List.pairwise_iff_getElem.mp h i j hi hj hlt)

theorem take_sorted_eq_filter {α : Type} (f : α → Nat) :
    ∀ (t : List α), t.Pairwise (fun a b => f a < f b) →
    ∀ (M : Nat) (hM : M < t.length),
    t.take (M + 1) = t.filter (fun x => decide (f x ≤ f (t.get ⟨M, hM⟩))) := by
  intro t
  induction t with
  | nil => intro _ M hM; simp at hM
  | cons b t' ih =>
    intro h M hM
    rcases List.pairwise_cons.mp h with ⟨hb, ht'⟩
    cases M with
    | zero =>
      have hbb : decide (f b ≤ f ((b :: t').get ⟨0, hM⟩)) = true := by
        simp
      have hnil : t'.filter
          (fun x => decide (f x ≤ f ((b :: t').get ⟨0, hM⟩))) = [] := by
        apply List.filter_eq_nil_iff.mpr
        intro a ha
        simp only [List.get, decide_eq_true_eq, not_le]
        exact hb a ha
      rw [List.take_succ_cons, List.take_zero, List.filter_cons, if_pos hbb,
        hnil]
    | succ M' =>
      have hM' : M' < t'.length := by
        simpa using hM
      have hget : (b :: t').get ⟨M' + 1, hM⟩ = t'.get ⟨M', hM'⟩ := rfl
      have hble : decide (f b ≤ f ((b :: t').get ⟨M' + 1, hM⟩)) = true := by
        rw [hget]
        simp only [decide_eq_true_eq]
        exact le_of_lt (hb _ (List.get_mem t' M' hM'))
      rw [List.take_succ_cons, List.filter_cons, if_pos hble]
      refine congrArg (List.cons b) ?_
      rw [ih ht' M' hM']
      apply List.filter_congr
      intro x _
      rw [hget]

theorem jsSlice_sorted_eq_filter {α : Type} (f : α → Nat) :
    ∀ (l : List α), l.Pairwise (fun a b => f a < f b) →
    ∀ (m M : Nat) (hm : m ≤ M) (hM : M < l.length),
    jsSlice l m (M + 1)
      = l.filter (fun x =>
          decide (f (l.get ⟨m, Nat.lt_of_le_of_lt hm hM⟩) ≤ f x) &&
          decide (f x ≤ f (l.get ⟨M, hM⟩))) := by
  intro l
  induction l with
  | nil => intro _ m M hm hM; simp at hM
  | cons a t ih =>
    intro h m M hm hM
    rcases List.pairwise_cons.mp h with ⟨ha, ht⟩
    cases m with
    | zero =>
      have hget0 : (a :: t).get ⟨0, Nat.lt_of_le_of_lt hm hM⟩ = a := rfl
      have hpa : (decide (f ((a :: t).get ⟨0, Nat.lt_of_le_of_lt hm hM⟩) ≤ f a) &&
          decide (f a ≤ f ((a :: t).get ⟨M, hM⟩))) = true := by
        rw [hget0]
        have h2 : f a ≤ f ((a :: t).get ⟨M, hM⟩) := by
          have h3 := sorted_get_le f (a :: t) h 0 M
            (Nat.lt_of_le_of_lt hm hM) hM (Nat.zero_le M)
          rw [hget0] at h3
          exact h3
        simp only [Bool.and_eq_true, decide_eq_true_eq]
        exact ⟨le_refl _, h2⟩
      have hslice : jsSlice (a :: t) 0 (M + 1) = (a :: t).take (M + 1) := by
        unfold jsSlice
        rw [List.drop_zero]
      rw [hslice, List.filter_cons, if_pos hpa]
      cases M with
      | zero =>
        have hnil : t.filter (fun x =>
            decide (f ((a :: t).get ⟨0, Nat.lt_of_le_of_lt hm hM⟩) ≤ f x) &&
            decide (f x ≤ f ((a :: t).get ⟨0, hM⟩))) = [] := by
          apply List.filter_eq_nil_iff.mpr
          intro x hx
          simp only [hget0, List.get, Bool.and_eq_true, decide_eq_true_eq,
            not_and, not_le]
          intro _
          exact ha x hx
        rw [List.take_succ_cons, List.take_zero, hnil]
      | succ M' =>
        have hM' : M' < t.length := by simpa using hM
        have hgetM : (a :: t).get ⟨M' + 1, hM⟩ = t.get ⟨M', hM'⟩ := rfl
        rw [List.take_succ_cons]
        refine congrArg (List.cons a) ?_
        rw [take_sorted_eq_filter f t ht M' hM']
        apply List.filter_congr
        intro x hx
        have hax : decide (f ((a :: t).get ⟨0, Nat.lt_of_le_of_lt hm hM⟩) ≤ f x) = true := by
          rw [hget0]
          simp only [decide_eq_true_eq]
          exact le_of_lt (ha x hx)
        rw [hax, hgetM, Bool.true_and]
    | succ m' =>
      cases M with
      | zero => exact absurd hm (Nat.not_succ_le_zero m')
      | succ M' =>
        have hM' : M' < t.length := by simpa using hM
        have hm' : m' ≤ M' := Nat.le_of_succ_le_succ hm
        have hgetm : (a :: t).get ⟨m' + 1, Nat.lt_of_le_of_lt hm hM⟩
            = t.get ⟨m', Nat.lt_of_le_of_lt hm' hM'⟩ := rfl
        have hgetM : (a :: t).get ⟨M' + 1, hM⟩ = t.get ⟨M', hM'⟩ := rfl
        have hslice : jsSlice (a :: t) (m' + 1) (M' + 1 + 1)
            = jsSlice t m' (M' + 1) := by
          unfold jsSlice
          rw [List.take_succ_cons, List.drop_succ_cons]
        have hpa : (decide (f ((a :: t).get ⟨m' + 1, Nat.lt_of_le_of_lt hm hM⟩) ≤ f a) &&
            decide (f a ≤ f ((a :: t).get ⟨M' + 1, hM⟩))) = false := by
          rw [hgetm]
          have hnle : ¬ (f (t.get ⟨m', Nat.lt_of_le_of_lt hm' hM'⟩) ≤ f a) :=
            not_le.mpr (ha _ (List.get_mem t m' (Nat.lt_of_le_of_lt hm' hM')))
          rw [decide_eq_false hnle, Bool.false_and]
        rw [hslice, List.filter_cons, if_neg (by rw [hpa]; exact Bool.false_ne_true)]
        rw [ih ht m' M' hm' hM']
        apply List.filter_congr
        intro x _
        rw [hgetm, hgetM]

theorem handleRangeSelect_selected_eq (st : OCRState) (anchor target : Line)
    (lineElements : List Line)
    (hsorted : lineElements.Pairwise (fun a b => a.index < b.index))
    (hanchor : anchor ∈ lineElements) (htarget : target ∈ lineElements)
    (hlast : st.lastSelected = some anchor) :
    (handleRangeSelect st target lineElements).selectedLines
      = lineElements.filter (fun x =>
          (!(st.processedLines.contains x.index)) &&
          (decide (min anchor.index target.index ≤ x.index) &&
           decide (x.index ≤ max anchor.index target.index))) := by
  have hs : lineElements.indexOf anchor < lineElements.length :=
    List.indexOf_lt_length.mpr hanchor
  have he : lineElements.indexOf target < lineElements.length :=
    List.indexOf_lt_length.mpr htarget
  have hm : min (lineElements.indexOf anchor) (lineElements.indexOf target)
      ≤ max (lineElements.indexOf anchor) (lineElements.indexOf target) :=
    min_le_max
  have hM : max (lineElements.indexOf anchor) (lineElements.indexOf target)
      < lineElements.length := max_lt hs he
  have hsel : (handleRangeSelect st target lineElements).selectedLines
      = (jsSlice lineElements
          (min (lineElements.indexOf anchor) (lineElements.indexOf target))
          (max (lineElements.indexOf anchor) (lineElements.indexOf target) + 1)).filter
          (fun l => !(st.processedLines.contains l.index)) := by
    unfold handleRangeSelect
    rw [hlast]
  rw [hsel, jsSlice_sorted_eq_filter Line.index lineElements hsorted
    (min (lineElements.indexOf anchor) (lineElements.indexOf target))
    (max (lineElements.indexOf anchor) (lineElements.indexOf target)) hm hM,
    List.filter_filter]
  apply List.filter_congr
  intro x _
  rcases le_total (lineElements.indexOf anchor) (lineElements.indexOf target)
    with hse | hes
  · have hidx : anchor.index ≤ target.index := by
      have h4 := sorted_get_le Line.index lineElements hsorted
        (lineElements.indexOf anchor) (lineElements.indexOf target) hs he hse
      simp only [List.get_eq_getElem, List.getElem_indexOf] at h4
      exact h4
    have h5 : min (lineElements.indexOf anchor) (lineElements.indexOf target)
        = lineElements.indexOf anchor := min_eq_left hse
    have h6 : max (lineElements.indexOf anchor) (lineElements.indexOf target)
        = lineElements.indexOf target := max_eq_right hse
    simp only [List.get_eq_getElem, h5, h6, List.getElem_indexOf,
      min_eq_left hidx, max_eq_right hidx]
  · have hidx : target.index ≤ anchor.index := by
      have h4 := sorted_get_le Line.index lineElements hsorted
        (lineElements.indexOf target) (lineElements.indexOf anchor) he hs hes
      simp only [List.get_eq_getElem, List.getElem_indexOf] at h4
      exact h4
    have h5 : min (lineElements.indexOf anchor) (lineElements.indexOf target)
        = lineElements.indexOf target := min_eq_right hes
    have h6 : max (lineElements.indexOf anchor) (lineElements.indexOf target)
        = lineElements.indexOf anchor := max_eq_left hes
    simp only [List.get_eq_getElem, h5, h6, List.getElem_indexOf,
      min_eq_right hidx, max_eq_left hidx]

/-!
## Claim theorems
-/

/-- C3 counterexample: the spec's fallback clause says that with no colon
present the value is the entire *trimmed* text, but `processSelection`
assigns the text unchanged; on input `" a "` the code yields value
`" a "` while the claimed algorithm yields `"a"`. -/
theorem parseKV_fallback_not_trimmed :
    parseKV (str " a ") = ([], str " a ") ∧
    parseKV_claimed (str " a ") = ([], str "a") ∧
    parseKV (str " a ") ≠ parseKV_claimed (str " a ") := by
  refine ⟨by decide, by decide, by decide⟩

/-- C3 (amended): `parseKV` splits at the first full-width colon whenever
one occurs anywhere (even after an earlier half-width colon), else at the
first half-width colon, trimming key and value; with neither delimiter
the key is empty and the value is the entire text unchanged (not
additionally trimmed).  In particular `"姓名：张 : 三"` parses to key
`"姓名"` and value `"张 : 三"`. -/
theorem parseKV_spec :
    (∀ text : Str, parseKV text = parseKV_claimedAmended text) ∧
    parseKV (str "姓名：张 : 三") = (str "姓名", str "张 : 三") := by
  constructor
  · intro text
    unfold parseKV parseKV_claimedAmended
    simp only [firstIndexOf_eq_jsIndexOf]
    cases jsIndexOf text fullColon with
    | some i => rfl
    | none =>
      cases jsIndexOf text halfColon with
      | some i => rfl
      | none => rfl
  · decide

/-- C4: `guessCategory` agrees everywhere with the spec's description
(fixed precedence personal, medical, incident, legal; case-insensitive
substring matching; `personal` default, no fifth bucket), and the
ambiguous key `"事故鉴定结论"` classifies as `incident` because the
incident list is tested before the legal list. -/
theorem guessCategory_spec :
    (∀ key : Str, guessCategory key = classify_claimed key) ∧
    guessCategory (str "事故鉴定结论") = str "incident" := by
  constructor
  · intro key
    unfold guessCategory classify_claimed categoryTable
    simp only [List.find?]
    cases hp : personalKeys.any
        (fun w => jsIncludes (jsToLower key) (jsToLower w)) with
    | true => simp [hp]
    | false =>
      cases hm : medicalKeys.any
          (fun w => jsIncludes (jsToLower key) (jsToLower w)) with
      | true => simp [hp, hm]
      | false =>
        cases hi : incidentKeys.any
            (fun w => jsIncludes (jsToLower key) (jsToLower w)) with
        | true => simp [hp, hm, hi]
        | false =>
          cases hl : legalKeys.any
              (fun w => jsIncludes (jsToLower key) (jsToLower w)) with
          | true => simp [hp, hm, hi, hl]
          | false => simp [hp, hm, hi, hl]
  · decide

/-- C6 counterexample: `handleSave` with an unchanged key updates in
place (no delete), so it differs from delete-then-set, which would move
the entry to the end; and when the new key collides with another existing
key, delete-then-set updates that entry in place, so the renamed entry
does *not* land at the end of iteration order. -/
theorem rename_counterexample :
    (handleSave [(str "a", str "1"), (str "b", str "2")]
        (str "a") (str "a") (str "9")
      = [(str "a", str "9"), (str "b", str "2")]) ∧
    (mapSet (mapDelete [(str "a", str "1"), (str "b", str "2")] (str "a"))
        (str "a") (str "9")
      = [(str "b", str "2"), (str "a", str "9")]) ∧
    (handleSave [(str "a", str "1"), (str "b", str "2")]
        (str "a") (str "a") (str "9")
      ≠ mapSet (mapDelete [(str "a", str "1"), (str "b", str "2")] (str "a"))
          (str "a") (str "9")) ∧
    ((mapKeys (handleSave
        [(str "a", str "1"), (str "b", str "2"), (str "c", str "3")]
        (str "c") (str "a") (str "9"))).getLast? ≠ some (str "a")) := by
  refine ⟨by decide, by decide, by decide, by decide⟩

/-- C6 (amended): when the trimmed new key is non-empty and differs from
the old key, the rename performed by `handleSave` is exactly
`mapDelete` followed by `mapSet`; this places the renamed entry at the
end of iteration order provided the new key did not already name another
entry; and re-setting an existing key updates it in place without moving
it. -/
theorem rename_amended (m : List (Str × Str)) (oldKey newKey v : Str)
    (ht : jsTrim newKey = newKey) (hne : newKey ≠ [])
    (hdiff : newKey ≠ oldKey) :
    handleSave m oldKey newKey v
      = mapSet (mapDelete m oldKey) newKey (jsTrim v) ∧
    (newKey ∉ mapKeys (mapDelete m oldKey) →
      handleSave m oldKey newKey v
        = mapDelete m oldKey ++ [(newKey, jsTrim v)]) ∧
    (∀ (m' : List (Str × Str)) (k w : Str), k ∈ mapKeys m' →
      mapKeys (mapSet m' k w) = mapKeys m') := by
  have hmain : handleSave m oldKey newKey v
      = mapSet (mapDelete m oldKey) newKey (jsTrim v) := by
    unfold handleSave
    rw [ht, if_neg hne, if_neg hdiff]
  refine ⟨hmain, fun hnm => ?_, fun m' k w => mapKeys_mapSet_of_mem m' k w⟩
  rw [hmain, mapSet_of_not_mem _ _ _ hnm]

/-- Witness for `rename_amended` at a concrete input. -/
theorem rename_amended_witness :
    handleSave [(str "a", str "1")] (str "a") (str "b") (str "2")
      = mapSet (mapDelete [(str "a", str "1")] (str "a")) (str "b")
          (jsTrim (str "2")) ∧
    (str "b" ∉ mapKeys (mapDelete [(str "a", str "1")] (str "a")) →
      handleSave [(str "a", str "1")] (str "a") (str "b") (str "2")
        = mapDelete [(str "a", str "1")] (str "a")
            ++ [(str "b", jsTrim (str "2"))]) ∧
    (∀ (m' : List (Str × Str)) (k w : Str), k ∈ mapKeys m' →
      mapKeys (mapSet m' k w) = mapKeys m') :=
  rename_amended [(str "a", str "1")] (str "a") (str "b") (str "2")
    (by decide) (by decide) (by decide)

/-- C9 counterexample: a page change within a document does not discard
the field store — with a committed field in the store, `changePage`
advances the page but every previous field remains. -/
theorem changePage_keeps_store :
    let st0 : ViewerState :=
      { currentPage := 1, zoom := 100
        keyValueMap := [(str "姓名", ⟨str "张三", str "personal"⟩)]
        selectedText := []
        currentDocument := some ⟨2, []⟩ }
    (changePage st0 1).currentPage = 2 ∧
    (changePage st0 1).keyValueMap
      = [(str "姓名", ⟨str "张三", str "personal"⟩)] := by
  refine ⟨by decide, by decide⟩

/-- C9 (amended): on a *document* change the store is discarded and
rebuilt exclusively from the new document (independently of all prior
state, so uncommitted edits and previous fields are gone, and every field
in the fresh store comes from the new document's `processed_text`), while
a *page* change keeps the store untouched. -/
theorem store_lifecycle :
    (∀ (st st' : ViewerState) (doc : DocumentData),
      (viewDocument st doc).keyValueMap = (viewDocument st' doc).keyValueMap) ∧
    (∀ (st : ViewerState) (doc : DocumentData) (k : Str) (d : FieldData),
      (k, d) ∈ (viewDocument st doc).keyValueMap →
        k ∈ doc.processed_text.map Prod.fst) ∧
    (∀ (st : ViewerState) (doc : DocumentData),
      (viewDocument st doc).selectedText = []) ∧
    (∀ (st : ViewerState) (delta : Int),
      (changePage st delta).keyValueMap = st.keyValueMap) := by
  refine ⟨fun st st' doc => rfl, ?_, fun st doc => rfl, ?_⟩
  · intro st doc k d hmem
    have hk : k ∈ mapKeys ((viewDocument st doc).keyValueMap) := by
      exact List.mem_map_of_mem Prod.fst hmem
    have := mapKeys_foldl_mapSet_subset doc.processed_text [] k hk
    rcases this with h | h
    · simp [mapKeys] at h
    · exact h
  · intro st delta
    unfold changePage
    cases st.currentDocument with
    | none => rfl
    | some doc =>
      by_cases h : ((st.currentPage : Int) + delta < 1 ∨
          (st.currentPage : Int) + delta > (doc.pageCount : Int))
      · simp only [h, if_true]
      · simp only [h, if_false]

/-- Witness for `store_lifecycle` at a concrete input (the implication in
the second conjunct instantiated and discharged). -/
theorem store_lifecycle_witness :
    str "姓名" ∈ (List.map Prod.fst
      (DocumentData.processed_text ⟨1, [(str "姓名", str "张三")]⟩)) :=
  store_lifecycle.2.1
    { currentPage := 1, zoom := 100, keyValueMap := [], selectedText := []
      currentDocument := none }
    ⟨1, [(str "姓名", str "张三")]⟩ (str "姓名")
    ⟨str "张三", guessCategory (str "姓名")⟩ (by decide)

/-- C7: the final accumulator of the stream-line loop is exactly the
concatenation of the content fragments of the well-formed `data: ` lines
(blank lines, non-`data: ` lines, the `data: [DONE]` terminator, and
malformed or content-less payloads contribute nothing); and a line whose
payload fails to decode is skipped without modifying the accumulator and
without aborting the processing of the remaining lines. -/
theorem handleStreamResponse_spec :
    (∀ (decode : Str → Except Unit (Option Str)) (lines : List Str),
      processStreamLines decode [] lines
        = (lines.filterMap (streamFragment decode)).flatten) ∧
    (∀ (decode : Str → Except Unit (Option Str)) (pre post : List Str)
        (bad acc : Str), streamFragment decode bad = none →
      processStreamLines decode acc (pre ++ bad :: post)
        = processStreamLines decode acc (pre ++ post)) := by
  constructor
  · intro decode lines
    rw [processStreamLines_eq]
    rfl
  · intro decode pre post bad acc hbad
    rw [processStreamLines_eq, processStreamLines_eq,
      List.filterMap_append, List.filterMap_append, List.filterMap_cons, hbad]

/-- Witness for `handleStreamResponse_spec` at a concrete input: a
malformed `data: ` line between two well-formed ones is dropped without
affecting the result. -/
theorem handleStreamResponse_spec_witness :
    processStreamLines
      (fun s => if s == str "ok" then Except.ok (some (str "A"))
        else Except.error ())
      (str "") ([str "data: ok"] ++ (str "data: bad") :: [str "data: ok"])
      = processStreamLines
        (fun s => if s == str "ok" then Except.ok (some (str "A"))
          else Except.error ())
        (str "") ([str "data: ok"] ++ [str "data: ok"]) :=
  handleStreamResponse_spec.2
    (fun s => if s == str "ok" then Except.ok (some (str "A"))
      else Except.error ())
    [str "data: ok"] [str "data: ok"] (str "data: bad") (str "")
    (by decide)

/-- C2 counterexample: the claim's stage (1) — a case-sensitive exact
scan over the whole store before any case-insensitive matching — and its
alias-major stage (3) both disagree with `updateReportFields`, which runs
a single combined direct scan and an entry-major alias scan.  With store
`[HOSPITAL ↦ 甲, hospital ↦ 乙]` the code resolves `hospital` to `甲`
(first entry, case-insensitive) while the claimed algorithm returns `乙`
(case-sensitive stage first); with store `[就诊 ↦ 丙, 住院医院 ↦ 丁]`
the code returns `丙` (first store entry matching any alias) while the
claimed algorithm returns `丁` (first alias `医院` scanned over the whole
store). -/
theorem resolve_counterexample :
    (updateReportFields_resolve
        [(str "HOSPITAL", ⟨str "甲", str "medical"⟩),
         (str "hospital", ⟨str "乙", str "medical"⟩)] (str "hospital")
      = some (str "甲")) ∧
    (resolve_claimed
        [(str "HOSPITAL", ⟨str "甲", str "medical"⟩),
         (str "hospital", ⟨str "乙", str "medical"⟩)] (str "hospital")
      = some (str "乙")) ∧
    (updateReportFields_resolve
        [(str "就诊", ⟨str "丙", str "medical"⟩),
         (str "住院医院", ⟨str "丁", str "medical"⟩)] (str "hospital")
      = some (str "丙")) ∧
    (resolve_claimed
        [(str "就诊", ⟨str "丙", str "medical"⟩),
         (str "住院医院", ⟨str "丁", str "medical"⟩)] (str "hospital")
      = some (str "丁")) ∧
    some (str "甲") ≠ some (str "乙") ∧
    some (str "丙") ≠ some (str "丁") := by
  refine ⟨by decide, by decide, by decide, by decide, by decide, by decide⟩

/-- C2 (amended): placeholder resolution performs one combined direct
scan (first store entry whose key matches the placeholder name
case-sensitively *or* case-insensitively) and then — when the direct
result is null or empty — one entry-major alias scan (first store entry
matching any alias keyword bidirectionally, with a non-empty value;
empty-valued matches are remembered but scanning continues); a
placeholder with no truthy match is left unfilled.  The `hospital` /
`就诊医院` example resolves via the alias scan as claimed. -/
theorem updateReportFields_resolve_spec :
    (∀ (store : List (Str × FieldData)) (fieldName : Str),
      updateReportFields_resolve store fieldName
        = resolve_claimedAmended store fieldName) ∧
    updateReportFields_resolve
        [(str "就诊医院", ⟨str "市第一人民医院", str "medical"⟩)]
        (str "hospital")
      = some (str "市第一人民医院") := by
  constructor
  · intro store fieldName
    unfold updateReportFields_resolve resolve_claimedAmended
    rw [directScan_eq]
    by_cases htr : jsTruthy (((store.filter (fun e => e.1 == fieldName
        || jsToLower e.1 == jsToLower fieldName)).head?).map
        (fun e => e.2.value)) = true
    · rw [if_pos htr, if_pos htr]
    · rw [if_neg htr, if_neg htr]
      have hfv : jsTruthy (((store.filter (fun e => e.1 == fieldName
          || jsToLower e.1 == jsToLower fieldName)).head?).map
          (fun e => e.2.value)) = false := by
        cases h' : jsTruthy (((store.filter (fun e => e.1 == fieldName
            || jsToLower e.1 == jsToLower fieldName)).head?).map
            (fun e => e.2.value)) with
        | true => exact absurd h' htr
        | false => rfl
      cases hml : mapLookup fieldMapping fieldName with
      | none => rfl
      | some terms => exact aliasScan_eq terms store _ hfv
  · decide

/-- C8 counterexample: when no existing field matches, the inserted
field's category comes from the English placeholder-name table
(`guessFieldCategory`), not from the keyword classifier applied to the
first alias: for placeholder `assessmentDate` the code stores category
`legal`, while `classify` of the first alias `鉴定日期` yields
`incident` (its incident keyword `日期` fires before any legal
keyword). -/
theorem bindNew_category_counterexample :
    (updateFieldInKeyValueMap [] (str "assessmentDate") (str "2024年1月1日")
      = [(str "鉴定日期", ⟨str "2024年1月1日", str "legal"⟩)]) ∧
    guessCategory (str "鉴定日期") = str "incident" ∧
    str "legal" ≠ str "incident" := by
  refine ⟨by decide, by decide, by decide⟩

/-- C8 (amended): when the placeholder has an alias list and no store
entry matches any candidate key, `updateFieldInKeyValueMap` appends a
fresh field at the end of the store whose key is the first alias keyword,
whose value is the entered value, and whose category is
`guessFieldCategory` of the *placeholder name* (the fixed English-name
table, not the keyword classifier on the alias). -/
theorem bindNew_amended (store : List (Str × FieldData))
    (fieldName newValue : Str) (terms : List Str)
    (hmap : mapLookup fieldMapping fieldName = some terms)
    (hterms : terms ≠ [])
    (hnone : store.find? (fun e => keyMatchesAny terms e.1) = none) :
    updateFieldInKeyValueMap store fieldName newValue
      = store ++ [(terms.headD [],
          ⟨newValue, guessFieldCategory fieldName⟩)] := by
  unfold updateFieldInKeyValueMap
  rw [hmap]
  simp only [Option.getD_some]
  rw [hnone]
  apply mapSet_of_not_mem
  intro hmem
  rw [List.find?_eq_none] at hnone
  obtain ⟨e, hemem, hek⟩ := List.mem_map.mp hmem
  have hfalse := hnone e hemem
  apply hfalse
  have hhead : terms.headD [] ∈ terms := by
    cases terms with
    | nil => exact absurd rfl hterms
    | cons a as => exact List.mem_cons_self a as
  have : (e.1 == terms.headD [] || jsIncludes e.1 (terms.headD [])
      || jsIncludes (terms.headD []) e.1) = true := by
    rw [hek]
    simp
  exact List.any_eq_true.mpr ⟨terms.headD [], hhead, this⟩

/-- Witness for `bindNew_amended` at a concrete input. -/
theorem bindNew_amended_witness :
    updateFieldInKeyValueMap [(str "姓名", ⟨str "张三", str "personal"⟩)]
        (str "assessmentDate") (str "2024年1月1日")
      = [(str "姓名", ⟨str "张三", str "personal"⟩)]
        ++ [((([str "鉴定日期", str "鉴定时间"] : List Str).headD []),
            ⟨str "2024年1月1日", guessFieldCategory (str "assessmentDate")⟩)] :=
  bindNew_amended [(str "姓名", ⟨str "张三", str "personal"⟩)]
    (str "assessmentDate") (str "2024年1月1日")
    [str "鉴定日期", str "鉴定时间"] (by decide) (by decide) (by decide)

/-- C10: when the store splits as `pre ++ (k, d) :: post` with no entry
of `pre` matching any candidate key of the placeholder and `k` matching,
a manual placeholder edit rewrites exactly that entry's value: its key,
its category, its position, and every other entry are unchanged. -/
theorem updateField_frame (pre post : List (Str × FieldData))
    (k : Str) (d : FieldData) (fieldName newValue : Str)
    (_hval : jsTrim newValue ≠ [])
    (hpre : ∀ x ∈ pre, keyMatchesAny
      ((mapLookup fieldMapping fieldName).getD [fieldName]) x.1 = false)
    (hk : keyMatchesAny
      ((mapLookup fieldMapping fieldName).getD [fieldName]) k = true) :
    updateFieldInKeyValueMap (pre ++ (k, d) :: post) fieldName newValue
      = pre ++ (k, ⟨newValue, d.category⟩) :: post := by
  show (match List.find?
      (fun e => keyMatchesAny
        ((mapLookup fieldMapping fieldName).getD [fieldName]) e.1)
      (pre ++ (k, d) :: post) with
    | some e => mapSet (pre ++ (k, d) :: post) e.1
        ⟨newValue, e.2.category⟩
    | none => mapSet (pre ++ (k, d) :: post)
        (((mapLookup fieldMapping fieldName).getD [fieldName]).headD [])
        ⟨newValue, guessFieldCategory fieldName⟩) = _
  rw [find?_append_of_forall_false pre post (k, d) hpre hk]
  apply mapSet_append_first
  intro x hx hxk
  have := hpre x hx
  rw [hxk, hk] at this
  exact Bool.noConfusion this

/-- Witness for `updateField_frame` at a concrete input: editing the
`hospital` placeholder rewrites only the `就诊医院` entry's value. -/
theorem updateField_frame_witness :
    updateFieldInKeyValueMap
        ([(str "姓名", ⟨str "张三", str "personal"⟩)]
          ++ (str "就诊医院", ⟨str "旧医院", str "medical"⟩)
            :: [(str "结论", ⟨str "十级伤残", str "legal"⟩)])
        (str "hospital") (str "北京协和医院")
      = [(str "姓名", ⟨str "张三", str "personal"⟩)]
          ++ (str "就诊医院", ⟨str "北京协和医院", str "medical"⟩)
            :: [(str "结论", ⟨str "十级伤残", str "legal"⟩)] :=
  updateField_frame
    [(str "姓名", ⟨str "张三", str "personal"⟩)]
    [(str "结论", ⟨str "十级伤残", str "legal"⟩)]
    (str "就诊医院") ⟨str "旧医院", str "medical"⟩
    (str "hospital") (str "北京协和医院")
    (by decide) (by decide) (by decide)

/-- C5: in RANGE mode (a shift-click with an anchor), the selected set is
exactly the lines whose index lies in the closed interval between the
anchor's and the target's indices, minus the committed lines. -/
theorem handleRangeSelect_spec (st : OCRState) (anchor target : Line)
    (lineElements : List Line)
    (hsorted : lineElements.Pairwise (fun a b => a.index < b.index))
    (hanchor : anchor ∈ lineElements) (htarget : target ∈ lineElements)
    (hlast : st.lastSelected = some anchor) :
    ∀ l : Line,
      l ∈ (handleRangeSelect st target lineElements).selectedLines ↔
        (l ∈ lineElements ∧ min anchor.index target.index ≤ l.index ∧
          l.index ≤ max anchor.index target.index ∧
          l.index ∉ st.processedLines) := by
  intro l
  rw [handleRangeSelect_selected_eq st anchor target lineElements hsorted
    hanchor htarget hlast, List.mem_filter]
  simp only [Bool.and_eq_true, Bool.not_eq_true, decide_eq_true_eq]
  constructor
  · rintro ⟨hmem, ⟨hcont, hlo, hhi⟩⟩
    refine ⟨hmem, hlo, hhi, ?_⟩
    intro hin
    have hc : st.processedLines.contains l.index = true := List.elem_iff.mpr hin
    rw [hc] at hcont
    exact Bool.noConfusion hcont
  · rintro ⟨hmem, hlo, hhi, hnin⟩
    refine ⟨hmem, ?_, hlo, hhi⟩
    cases hcont : st.processedLines.contains l.index with
    | false => rfl
    | true => exact absurd (List.elem_iff.mp hcont) hnin

/-- Witness for `handleRangeSelect_spec`: lines at indices 2,3,4,5,6 with
line 4 committed; a shift-click range from the anchor at index 2 to the
target at index 6 excludes the committed line 4 and selects exactly
{2,3,5,6}. -/
theorem handleRangeSelect_spec_witness :
    (Line.mk 4 (str "丁") ∈
      (handleRangeSelect
        { selectedLines := [⟨2, str "甲"⟩], processedLines := [4]
          lastSelected := some ⟨2, str "甲"⟩ }
        ⟨6, str "己"⟩
        [⟨2, str "甲"⟩, ⟨3, str "乙"⟩, ⟨4, str "丁"⟩, ⟨5, str "戊"⟩,
         ⟨6, str "己"⟩]).selectedLines ↔
      (Line.mk 4 (str "丁") ∈
          [Line.mk 2 (str "甲"), ⟨3, str "乙"⟩, ⟨4, str "丁"⟩, ⟨5, str "戊"⟩,
           ⟨6, str "己"⟩] ∧
        min 2 6 ≤ 4 ∧ 4 ≤ max 2 6 ∧ 4 ∉ ([4] : List Nat))) ∧
    (handleRangeSelect
        { selectedLines := [⟨2, str "甲"⟩], processedLines := [4]
          lastSelected := some ⟨2, str "甲"⟩ }
        ⟨6, str "己"⟩
        [⟨2, str "甲"⟩, ⟨3, str "乙"⟩, ⟨4, str "丁"⟩, ⟨5, str "戊"⟩,
         ⟨6, str "己"⟩]).selectedLines
      = [⟨2, str "甲"⟩, ⟨3, str "乙"⟩, ⟨5, str "戊"⟩, ⟨6, str "己"⟩] :=
  ⟨handleRangeSelect_spec
      { selectedLines := [⟨2, str "甲"⟩], processedLines := [4]
        lastSelected := some ⟨2, str "甲"⟩ }
      ⟨2, str "甲"⟩ ⟨6, str "己"⟩
      [⟨2, str "甲"⟩, ⟨3, str "乙"⟩, ⟨4, str "丁"⟩, ⟨5, str "戊"⟩,
       ⟨6, str "己"⟩]
      (by decide) (by decide) (by decide) rfl ⟨4, str "丁"⟩,
   by decide⟩

/-- C1 counterexample: the commit concatenation follows the selection
set's insertion order, not ascending index order.  Ctrl-clicking the line
at index 1 and then the line at index 0 yields the concatenation
`"乙甲"`, while the ascending-index concatenation is `"甲乙"`. -/
theorem processSelection_counterexample :
    processSelection
        (handleMultiSelect
          (handleMultiSelect initialOCRState ⟨1, str "乙"⟩) ⟨0, str "甲"⟩)
      = str "乙甲" ∧
    ((sortByIndex
        (handleMultiSelect
          (handleMultiSelect initialOCRState ⟨1, str "乙"⟩)
          ⟨0, str "甲"⟩).selectedLines).map
        (fun l => jsTrim l.text)).flatten
      = str "甲乙" ∧
    str "乙甲" ≠ str "甲乙" := by
  refine ⟨by decide, by decide, by decide⟩

/-- C1 (amended): the commit operation concatenates the trimmed text of
the selected lines, with no separator, in the selection set's insertion
order; when that order is ascending by index — in particular for any
selection produced by a shift-click range over the document-ordered line
list — this coincides with the ascending-index concatenation. -/
theorem processSelection_amended :
    (∀ st : OCRState,
      st.selectedLines.Pairwise (fun a b => a.index < b.index) →
      processSelection st
        = ((sortByIndex st.selectedLines).map (fun l => jsTrim l.text)).flatten) ∧
    (∀ (st : OCRState) (anchor target : Line) (lineElements : List Line),
      lineElements.Pairwise (fun a b => a.index < b.index) →
      st.lastSelected = some anchor →
      (handleRangeSelect st target lineElements).selectedLines.Pairwise
        (fun a b => a.index < b.index)) := by
  constructor
  · intro st h
    have hsorted : List.Sorted (fun a b : Line => a.index ≤ b.index)
        st.selectedLines :=
      h.imp (fun hab => le_of_lt hab)
    unfold sortByIndex
    rw [List.Sorted.insertionSort_eq hsorted]
    rfl
  · intro st anchor target lineElements hsorted hlast
    have hsel : (handleRangeSelect st target lineElements).selectedLines
        = (jsSlice lineElements
            (min (lineElements.indexOf anchor) (lineElements.indexOf target))
            (max (lineElements.indexOf anchor) (lineElements.indexOf target) + 1)).filter
            (fun l => !(st.processedLines.contains l.index)) := by
      unfold handleRangeSelect
      rw [hlast]
    rw [hsel]
    have hsub : (jsSlice lineElements
        (min (lineElements.indexOf anchor) (lineElements.indexOf target))
        (max (lineElements.indexOf anchor) (lineElements.indexOf target) + 1)).Sublist
        lineElements := by
      unfold jsSlice
      exact (List.drop_sublist _ _).trans (List.take_sublist _ _)
    exact List.Pairwise.sublist ((List.filter_sublist _).trans hsub) hsorted

/-- Witness for `processSelection_amended` at concrete inputs. -/
theorem processSelection_amended_witness :
    processSelection
        { selectedLines := [⟨0, str "甲"⟩, ⟨2, str "乙"⟩]
          processedLines := [], lastSelected := none }
      = ((sortByIndex
          (OCRState.selectedLines
            { selectedLines := [⟨0, str "甲"⟩, ⟨2, str "乙"⟩]
              processedLines := [], lastSelected := none })).map
          (fun l => jsTrim l.text)).flatten ∧
    (handleRangeSelect
        { selectedLines := [], processedLines := []
          lastSelected := some ⟨0, str "甲"⟩ }
        ⟨2, str "乙"⟩
        [⟨0, str "甲"⟩, ⟨1, str "丙"⟩, ⟨2, str "乙"⟩]).selectedLines.Pairwise
      (fun a b => a.index < b.index) :=
  ⟨processSelection_amended.1
      { selectedLines := [⟨0, str "甲"⟩, ⟨2, str "乙"⟩]
        processedLines := [], lastSelected := none } (by decide),
   processSelection_amended.2
      { selectedLines := [], processedLines := []
        lastSelected := some ⟨0, str "甲"⟩ }
      ⟨0, str "甲"⟩ ⟨2, str "乙"⟩
      [⟨0, str "甲"⟩, ⟨1, str "丙"⟩, ⟨2, str "乙"⟩] (by decide) rfl⟩

end OCR

